import Mathlib

/-!
# Verification of the remarkable-dashboard agenda core

Shallow embedding, in Lean 4, of the algorithmic core of the dashboard
generator: the pagination distribution algorithm
(`distribute_items_across_pages`), the event validator (`validate_events`),
the time normalizer (`convert_to_local`) and the recurrence resolution
engine (`parse_events`), together with proofs and refutations of the
specification's claims about them.

Python lists become Lean `List`s, dictionaries with fixed keys become
structures, tuple keys become pairs, and machine-level concerns absent from
the source (overflow, floats) do not arise: all counts are `Nat` and all
time arithmetic in the source is exact integer arithmetic on
minutes/days, modelled as `Int`.
-/

set_option maxRecDepth 10000

namespace Dashboard

/-! ## Pagination distribution algorithm

Embedding of `distribute_items_across_pages(events, tasks, max_items)`.
Events and tasks are opaque payloads (`α`, `β`): the source moves event
dictionaries and task strings around without inspecting them.  A page is
the dictionary `{'events': [...], 'tasks': [...]}`. -/

structure Page (α β : Type) where
  events : List α
  tasks : List β
deriving DecidableEq, Repr

/-- The upfront target computation of `distribute_items_across_pages`
(source lines 2078-2097): ceiling page count, `total // pages` per page
with the first `total % pages` pages getting one extra, then the
`min(4, total // pages)` floor applied via `max`. -/
def pageTargets (total max_items : Nat) : List Nat :=
  let min_pages_needed := (total + max_items - 1) / max_items
  let target_per_page := total / min_pages_needed
  let remainder := total % min_pages_needed
  let base := (List.range min_pages_needed).map
    (fun i => if i < remainder then target_per_page + 1 else target_per_page)
  let min_target := if min_pages_needed > 1 then min 4 (total / min_pages_needed) else 0
  base.map (fun t => max t min_target)

/-- The per-page filling loop (source lines 2106-2134): for each target,
take events first, then tasks, up to the target; if still under target,
not on the last page and under `max_items`, opportunistically append one
more available item (event preferred).  Returns the pages built plus the
undistributed remainder of each input list. -/
def fillPages {α β : Type} (max_items : Nat) :
    List Nat → List α → List β → List (Page α β) × List α × List β
  | [], evs, tks => ([], evs, tks)
  | t :: rest, evs, tks =>
    let page_events := evs.take t
    let evs1 := evs.drop t
    let room := t - page_events.length
    let page_tasks := tks.take room
    let tks1 := tks.drop room
    let n := page_events.length + page_tasks.length
    if n < t ∧ rest ≠ [] ∧ n < max_items then
      match evs1, tks1 with
      | e :: es, tks2 =>
        let r := fillPages max_items rest es tks2
        (⟨page_events ++ [e], page_tasks⟩ :: r.1, r.2)
      | [], tk :: ts =>
        let r := fillPages max_items rest [] ts
        (⟨page_events, page_tasks ++ [tk]⟩ :: r.1, r.2)
      | [], [] =>
        let r := fillPages max_items rest [] []
        (⟨page_events, page_tasks⟩ :: r.1, r.2)
    else
      let r := fillPages max_items rest evs1 tks1
      (⟨page_events, page_tasks⟩ :: r.1, r.2)

/-- Leftover handling (source lines 2137-2151): items still undistributed
are appended to the last page while it has room (events first, then
tasks), and anything still left becomes one new trailing page. -/
def appendLeftovers {α β : Type} (max_items : Nat) (pages : List (Page α β))
    (evs : List α) (tks : List β) : List (Page α β) :=
  if evs.isEmpty && tks.isEmpty then pages
  else
    match pages.getLast? with
    | some last =>
      if last.events.length + last.tasks.length < max_items then
        let room := max_items - (last.events.length + last.tasks.length)
        let pe := evs.take room
        let evs1 := evs.drop room
        let room2 := room - pe.length
        let pt := tks.take room2
        let tks1 := tks.drop room2
        let pages1 := pages.dropLast ++ [⟨last.events ++ pe, last.tasks ++ pt⟩]
        if evs1.isEmpty && tks1.isEmpty then pages1 else pages1 ++ [⟨evs1, tks1⟩]
      else pages ++ [⟨evs, tks⟩]
    | none => pages ++ [⟨evs, tks⟩]

/-- `distribute_items_across_pages` (source lines 2025-2166).  The
post-hoc `validate_distribution_balance` call only logs: the source
returns `pages` on both sides of the final branch, so it does not affect
the value and is not part of the embedding. -/
def distribute_items_across_pages {α β : Type} (events : List α) (tasks : List β)
    (max_items : Nat) : List (Page α β) :=
  if events.length + tasks.length > 1000 then [⟨[], []⟩]
  else if events.isEmpty && tasks.isEmpty then [⟨[], []⟩]
  else
    let total := events.length + tasks.length
    if total ≤ max_items then [⟨events, tasks⟩]
    else
      let targets := pageTargets total max_items
      let r := fillPages max_items targets events tasks
      appendLeftovers max_items r.1 r.2.1 r.2.2

/-- Concatenation of the pages' event lists in page order. -/
def pagesEvents {α β : Type} : List (Page α β) → List α
  | [] => []
  | p :: ps => p.events ++ pagesEvents ps

/-- Concatenation of the pages' task lists in page order. -/
def pagesTasks {α β : Type} : List (Page α β) → List β
  | [] => []
  | p :: ps => p.tasks ++ pagesTasks ps

theorem pagesEvents_append {α β : Type} (ps qs : List (Page α β)) :
    pagesEvents (ps ++ qs) = pagesEvents ps ++ pagesEvents qs := by
  induction ps with
  | nil => rfl
  | cons p ps ih => simp [pagesEvents, ih]

theorem pagesTasks_append {α β : Type} (ps qs : List (Page α β)) :
    pagesTasks (ps ++ qs) = pagesTasks ps ++ pagesTasks qs := by
  induction ps with
  | nil => rfl
  | cons p ps ih => simp [pagesTasks, ih]

theorem pagesEvents_length {α β : Type} (ps : List (Page α β)) :
    (pagesEvents ps).length = (ps.map (fun p => p.events.length)).sum := by
  induction ps with
  | nil => rfl
  | cons p ps ih => simp [pagesEvents, ih]

theorem pagesTasks_length {α β : Type} (ps : List (Page α β)) :
    (pagesTasks ps).length = (ps.map (fun p => p.tasks.length)).sum := by
  induction ps with
  | nil => rfl
  | cons p ps ih => simp [pagesTasks, ih]

/-- The filling loop hands each input item to exactly one page, in order:
the concatenation of the built pages' events followed by the
undistributed events is the input event list, and likewise for tasks. -/
theorem fillPages_conserve {α β : Type} (m : Nat) (ts : List Nat) (evs : List α)
    (tks : List β) :
    pagesEvents (fillPages m ts evs tks).1 ++ (fillPages m ts evs tks).2.1 = evs ∧
    pagesTasks (fillPages m ts evs tks).1 ++ (fillPages m ts evs tks).2.2 = tks := by
  induction ts generalizing evs tks with
  | nil => simp [fillPages, pagesEvents, pagesTasks]
  | cons t rest ih =>
    simp only [fillPages]
    split
    · split
      next e es heq =>
        have h1 := (ih es (tks.drop (t - (evs.take t).length))).1
        have h2 := (ih es (tks.drop (t - (evs.take t).length))).2
        constructor
        · simp only [pagesEvents, List.append_assoc, List.cons_append, List.singleton_append,
            List.nil_append, h1]
          rw [← heq, List.take_append_drop]
        · simp only [pagesTasks, List.append_assoc, h2, List.take_append_drop]
      next tk ts2 hev htk =>
        have h1 := (ih [] ts2).1
        have h2 := (ih [] ts2).2
        have hevtake : evs.take t = evs := by
          have h0 := List.take_append_drop t evs
          rw [hev, List.append_nil] at h0
          exact h0
        constructor
        · simp only [pagesEvents, List.append_assoc, h1, List.append_nil, hevtake]
        · simp only [pagesTasks, List.append_assoc, List.cons_append, List.singleton_append,
            List.nil_append, h2]
          rw [← htk, List.take_append_drop]
      next hev htk =>
        have h1 := (ih [] []).1
        have h2 := (ih [] []).2
        have hevtake : evs.take t = evs := by
          have h0 := List.take_append_drop t evs
          rw [hev, List.append_nil] at h0
          exact h0
        have htktake : tks.take (t - (evs.take t).length) = tks := by
          have h0 := List.take_append_drop (t - (evs.take t).length) tks
          rw [htk, List.append_nil] at h0
          exact h0
        constructor
        · simp only [pagesEvents, List.append_assoc, h1, List.append_nil, hevtake]
        · simp only [pagesTasks, List.append_assoc, h2, List.append_nil, htktake]
    · have h1 := (ih (evs.drop t) (tks.drop (t - (evs.take t).length))).1
      have h2 := (ih (evs.drop t) (tks.drop (t - (evs.take t).length))).2
      constructor
      · simp only [pagesEvents, List.append_assoc, h1, List.take_append_drop]
      · simp only [pagesTasks, List.append_assoc, h2, List.take_append_drop]

/-- How many items the filling loop leaves undistributed: the input total
minus the sum of the targets (truncated at zero). -/
theorem fillPages_rem {α β : Type} (m : Nat) (ts : List Nat) (evs : List α)
    (tks : List β) :
    (fillPages m ts evs tks).2.1.length + (fillPages m ts evs tks).2.2.length
      = evs.length + tks.length - ts.sum := by
  induction ts generalizing evs tks with
  | nil => simp [fillPages]
  | cons t rest ih =>
    have h4 : (evs.take t).length = min t evs.length := by simp
    have h5 : (tks.take (t - (evs.take t).length)).length
        = min (t - (evs.take t).length) tks.length := by simp
    simp only [fillPages]
    split
    next hcond =>
      have hlt := hcond.1
      split
      next e es heq =>
        exfalso
        have hlen := congrArg List.length heq
        simp only [List.length_drop, List.length_cons] at hlen
        omega
      next tk ts2 hev htk =>
        exfalso
        have hlev := congrArg List.length hev
        have hltk := congrArg List.length htk
        simp only [List.length_drop, List.length_cons] at hlev hltk
        omega
      next hev htk =>
        have hlev := congrArg List.length hev
        have hltk := congrArg List.length htk
        simp only [List.length_drop, List.length_nil] at hlev hltk
        rw [ih]
        simp only [List.length_nil, List.sum_cons]
        omega
    · rw [ih]
      simp only [List.length_drop, List.sum_cons]
      omega

/-- When the targets sum to at most the number of items available, every
page ends up holding exactly its target. -/
theorem fillPages_sizes {α β : Type} (m : Nat) (ts : List Nat) (evs : List α)
    (tks : List β) (h : ts.sum ≤ evs.length + tks.length) :
    (fillPages m ts evs tks).1.map (fun p => p.events.length + p.tasks.length) = ts := by
  induction ts generalizing evs tks with
  | nil => simp [fillPages]
  | cons t rest ih =>
    simp only [List.sum_cons] at h
    have h4 : (evs.take t).length = min t evs.length := by simp
    have h5 : (tks.take (t - (evs.take t).length)).length
        = min (t - (evs.take t).length) tks.length := by simp
    have h6 : (evs.drop t).length = evs.length - t := by simp
    have h7 : (tks.drop (t - (evs.take t).length)).length
        = tks.length - (t - (evs.take t).length) := by simp
    have hn : ¬ ((evs.take t).length + (tks.take (t - (evs.take t).length)).length < t ∧
        rest ≠ [] ∧ (evs.take t).length + (tks.take (t - (evs.take t).length)).length < m) := by
      intro hc
      have := hc.1
      omega
    have hsub : rest.sum ≤ (evs.drop t).length + (tks.drop (t - (evs.take t).length)).length := by
      omega
    simp only [fillPages]
    rw [if_neg hn]
    simp only [List.map_cons]
    rw [ih _ _ hsub]
    congr 1
    omega

/-- Every page built by the filling loop holds at most its target, hence
at most `max_items` when all targets are bounded by `max_items`. -/
theorem fillPages_size_le {α β : Type} (m : Nat) (ts : List Nat) (evs : List α)
    (tks : List β) (hts : ∀ t ∈ ts, t ≤ m) :
    ∀ p ∈ (fillPages m ts evs tks).1, p.events.length + p.tasks.length ≤ m := by
  induction ts generalizing evs tks with
  | nil => simp [fillPages]
  | cons t rest ih =>
    have hrest : ∀ t1 ∈ rest, t1 ≤ m := fun t1 h1 => hts t1 (List.mem_cons_of_mem _ h1)
    have htm : t ≤ m := hts t (List.mem_cons_self _ _)
    have h4 : (evs.take t).length = min t evs.length := by simp
    have h5 : (tks.take (t - (evs.take t).length)).length
        = min (t - (evs.take t).length) tks.length := by simp
    simp only [fillPages]
    split
    next hcond =>
      have hm := hcond.2.2
      split
      · intro p hp
        rw [List.mem_cons] at hp
        rcases hp with hp | hp
        · subst hp
          simp only [List.length_append, List.length_cons, List.length_nil]
          omega
        · exact ih _ _ hrest p hp
      · intro p hp
        rw [List.mem_cons] at hp
        rcases hp with hp | hp
        · subst hp
          simp only [List.length_append, List.length_cons, List.length_nil]
          omega
        · exact ih _ _ hrest p hp
      · intro p hp
        rw [List.mem_cons] at hp
        rcases hp with hp | hp
        · subst hp
          simp only []
          omega
        · exact ih _ _ hrest p hp
    · intro p hp
      rw [List.mem_cons] at hp
      rcases hp with hp | hp
      · subst hp
        simp only []
        omega
      · exact ih _ _ hrest p hp

theorem sum_range_ite (q tpp rem : Nat) :
    ((List.range q).map (fun i => if i < rem then tpp + 1 else tpp)).sum
      = q * tpp + min rem q := by
  induction q with
  | zero => simp
  | succ q ih =>
    rw [List.range_succ, List.map_append, List.sum_append]
    simp only [List.map_cons, List.map_nil, List.sum_cons, List.sum_nil, ih]
    by_cases hq : q < rem
    · rw [if_pos hq]
      have : min rem (q + 1) = min rem q + 1 := by omega
      rw [this, Nat.succ_mul]
      omega
    · rw [if_neg hq]
      have : min rem (q + 1) = min rem q := by omega
      rw [this, Nat.succ_mul]
      omega

/-- The total item count never exceeds the ceiling page count times the
capacity. -/
theorem total_le_pages_mul (total m : Nat) (hm : 0 < m) :
    total ≤ ((total + m - 1) / m) * m := by
  have hdm := Nat.div_add_mod (total + m - 1) m
  have hlt := Nat.mod_lt (total + m - 1) hm
  have hcomm : ((total + m - 1) / m) * m = m * ((total + m - 1) / m) :=
    Nat.mul_comm _ _
  omega

theorem ceil_pages_pos (total m : Nat) (hm : 0 < m) (ht : m < total) :
    0 < (total + m - 1) / m :=
  Nat.div_pos (by omega) hm

/-- The per-page target is at most the capacity. -/
theorem target_per_page_le (total m : Nat) (hm : 0 < m) (ht : m < total) :
    total / ((total + m - 1) / m) ≤ m := by
  have hq := ceil_pages_pos total m hm ht
  have h1 := total_le_pages_mul total m hm
  calc total / ((total + m - 1) / m)
      ≤ ((total + m - 1) / m) * m / ((total + m - 1) / m) := Nat.div_le_div_right h1
    _ = m := Nat.mul_div_cancel_left m hq

/-- When the division leaves a remainder, even the enlarged targets fit the
capacity. -/
theorem target_per_page_succ_le (total m : Nat) (hm : 0 < m) (ht : m < total)
    (hr : 0 < total % ((total + m - 1) / m)) :
    total / ((total + m - 1) / m) + 1 ≤ m := by
  have hq := ceil_pages_pos total m hm ht
  have htpp := target_per_page_le total m hm ht
  by_contra hcon
  have heq : total / ((total + m - 1) / m) = m := by omega
  have h1 := total_le_pages_mul total m hm
  have hdm := Nat.div_add_mod total ((total + m - 1) / m)
  rw [heq] at hdm
  have hcomm : ((total + m - 1) / m) * m = m * ((total + m - 1) / m) :=
    Nat.mul_comm _ _
  omega

/-- The `min(4, ...)` floor of the source never changes any target (every
target is already at least `total // pages`), so the target list is exactly
the base distribution. -/
theorem pageTargets_eq (total m : Nat) :
    pageTargets total m = (List.range ((total + m - 1) / m)).map
      (fun i => if i < total % ((total + m - 1) / m)
        then total / ((total + m - 1) / m) + 1
        else total / ((total + m - 1) / m)) := by
  simp only [pageTargets, List.map_map]
  apply List.map_congr_left
  intro i _
  simp only [Function.comp_apply]
  by_cases hi : i < total % ((total + m - 1) / m)
  · rw [if_pos hi]
    split
    · exact Nat.max_eq_left (le_trans (Nat.min_le_right _ _) (Nat.le_succ _))
    · exact Nat.max_eq_left (Nat.zero_le _)
  · rw [if_neg hi]
    split
    · exact Nat.max_eq_left (Nat.min_le_right _ _)
    · exact Nat.max_eq_left (Nat.zero_le _)

theorem pageTargets_length (total m : Nat) :
    (pageTargets total m).length = (total + m - 1) / m := by
  simp [pageTargets]

/-- The targets sum to exactly the total item count. -/
theorem pageTargets_sum (total m : Nat) (hm : 0 < m) (ht : m < total) :
    (pageTargets total m).sum = total := by
  rw [pageTargets_eq, sum_range_ite]
  have hq := ceil_pages_pos total m hm ht
  have hr := Nat.mod_lt total hq
  have hdm := Nat.div_add_mod total ((total + m - 1) / m)
  omega

/-- Every target respects the capacity. -/
theorem pageTargets_le (total m : Nat) (hm : 0 < m) (ht : m < total) :
    ∀ t ∈ pageTargets total m, t ≤ m := by
  rw [pageTargets_eq]
  intro t htmem
  rw [List.mem_map] at htmem
  obtain ⟨i, hi, rfl⟩ := htmem
  by_cases hir : i < total % ((total + m - 1) / m)
  · rw [if_pos hir]
    exact target_per_page_succ_le total m hm ht (by omega)
  · rw [if_neg hir]
    exact target_per_page_le total m hm ht

/-- In the multi-page branch the algorithm is exactly the filling loop:
the targets consume every item, so the leftover pass contributes
nothing. -/
theorem distribute_main_eq {α β : Type} (E : List α) (T : List β) (m : Nat)
    (hm : 0 < m) (hgt : m < E.length + T.length) (hle : E.length + T.length ≤ 1000) :
    distribute_items_across_pages E T m
      = (fillPages m (pageTargets (E.length + T.length) m) E T).1 := by
  have hrem := fillPages_rem m (pageTargets (E.length + T.length) m) E T
  rw [pageTargets_sum _ _ hm hgt] at hrem
  have he : (fillPages m (pageTargets (E.length + T.length) m) E T).2.1 = [] := by
    rw [← List.length_eq_zero]
    omega
  have ht : (fillPages m (pageTargets (E.length + T.length) m) E T).2.2 = [] := by
    rw [← List.length_eq_zero]
    omega
  have hne : ¬ ((E.isEmpty && T.isEmpty) = true) := by
    intro hc
    rw [Bool.and_eq_true, List.isEmpty_iff, List.isEmpty_iff] at hc
    rw [hc.1, hc.2] at hgt
    simp at hgt
  unfold distribute_items_across_pages
  rw [if_neg (by omega), if_neg hne, if_neg (by omega)]
  show appendLeftovers m (fillPages m (pageTargets (E.length + T.length) m) E T).1
      (fillPages m (pageTargets (E.length + T.length) m) E T).2.1
      (fillPages m (pageTargets (E.length + T.length) m) E T).2.2
    = (fillPages m (pageTargets (E.length + T.length) m) E T).1
  rw [he, ht]
  unfold appendLeftovers
  rw [if_pos (by simp)]

/-- C1 (amended): for inputs of at most 1000 combined items and positive
capacity, distribution conserves events and tasks: concatenating pages in
order reproduces the inputs, and the page lengths sum to the input
lengths. -/
theorem distribute_conserves {α β : Type} (E : List α) (T : List β) (cap : Nat)
    (hcap : 0 < cap) (hle : E.length + T.length ≤ 1000) :
    pagesEvents (distribute_items_across_pages E T cap) = E ∧
    pagesTasks (distribute_items_across_pages E T cap) = T ∧
    ((distribute_items_across_pages E T cap).map (fun p => p.events.length)).sum
      = E.length ∧
    ((distribute_items_across_pages E T cap).map (fun p => p.tasks.length)).sum
      = T.length := by
  have main : pagesEvents (distribute_items_across_pages E T cap) = E ∧
      pagesTasks (distribute_items_across_pages E T cap) = T := by
    by_cases hgt : cap < E.length + T.length
    · rw [distribute_main_eq E T cap hcap hgt hle]
      have hc := fillPages_conserve cap (pageTargets (E.length + T.length) cap) E T
      have hrem := fillPages_rem cap (pageTargets (E.length + T.length) cap) E T
      rw [pageTargets_sum _ _ hcap hgt] at hrem
      have he : (fillPages cap (pageTargets (E.length + T.length) cap) E T).2.1 = [] := by
        rw [← List.length_eq_zero]
        omega
      have ht : (fillPages cap (pageTargets (E.length + T.length) cap) E T).2.2 = [] := by
        rw [← List.length_eq_zero]
        omega
      rw [he, ht, List.append_nil, List.append_nil] at hc
      exact hc
    · unfold distribute_items_across_pages
      rw [if_neg (by omega)]
      by_cases hemp : (E.isEmpty && T.isEmpty) = true
      · rw [if_pos hemp]
        rw [Bool.and_eq_true, List.isEmpty_iff, List.isEmpty_iff] at hemp
        rw [hemp.1, hemp.2]
        simp [pagesEvents, pagesTasks]
      · rw [if_neg hemp, if_pos (by omega)]
        simp [pagesEvents, pagesTasks]
  refine ⟨main.1, main.2, ?_, ?_⟩
  · rw [← pagesEvents_length, main.1]
  · rw [← pagesTasks_length, main.2]

/-- Witness for `distribute_conserves` at a concrete input. -/
theorem distribute_conserves_witness :
    pagesEvents (distribute_items_across_pages [10, 20, 30] [true, false] 2) = [10, 20, 30] ∧
    pagesTasks (distribute_items_across_pages [10, 20, 30] [true, false] 2) = [true, false] ∧
    ((distribute_items_across_pages [10, 20, 30] [true, false] 2).map
      (fun p => p.events.length)).sum = [10, 20, 30].length ∧
    ((distribute_items_across_pages [10, 20, 30] [true, false] 2).map
      (fun p => p.tasks.length)).sum = [true, false].length :=
  distribute_conserves [10, 20, 30] [true, false] 2 (by decide) (by decide)

/-- C1 as stated is false: with more than 1000 items the safety guard
returns one empty page and every input item is discarded, so the page
event-lengths sum to 0, not to `len(E)`. -/
theorem distribute_conserves_counterexample :
    0 < 6 ∧
    ((distribute_items_across_pages (List.replicate 1001 (0 : Nat)) ([] : List Nat) 6).map
      (fun p => p.events.length)).sum ≠ (List.replicate 1001 (0 : Nat)).length := by
  constructor
  · decide
  · decide

/-- C2: with a positive capacity, every page of every distribution holds
at most `max_items` items (so in particular every page of a
non-degenerate distribution does, which is what the claim permits). -/
theorem distribute_capacity {α β : Type} (E : List α) (T : List β) (cap : Nat)
    (hcap : 0 < cap) :
    ∀ p ∈ distribute_items_across_pages E T cap,
      p.events.length + p.tasks.length ≤ cap := by
  by_cases h1000 : E.length + T.length > 1000
  · unfold distribute_items_across_pages
    rw [if_pos h1000]
    intro p hp
    rw [List.mem_singleton] at hp
    subst hp
    simp
  · by_cases hgt : cap < E.length + T.length
    · rw [distribute_main_eq E T cap hcap hgt (by omega)]
      exact fillPages_size_le _ _ _ _ (pageTargets_le _ _ hcap hgt)
    · unfold distribute_items_across_pages
      rw [if_neg h1000]
      by_cases hemp : (E.isEmpty && T.isEmpty) = true
      · rw [if_pos hemp]
        intro p hp
        rw [List.mem_singleton] at hp
        subst hp
        simp
      · rw [if_neg hemp, if_pos (by omega)]
        intro p hp
        rw [List.mem_singleton] at hp
        subst hp
        simp only [List.length_append]
        omega

/-- Witness for `distribute_capacity` at a concrete input and page. -/
theorem distribute_capacity_witness :
    (Page.mk [0, 1] ([] : List Nat)).events.length
      + (Page.mk [0, 1] ([] : List Nat)).tasks.length ≤ 2 :=
  distribute_capacity [0, 1, 2] ([] : List Nat) 2 (by decide)
    (Page.mk [0, 1] ([] : List Nat)) (by decide)

/-- C3 (amended): in the multi-page regime (total above capacity but
within the 1000-item guard) the algorithm produces exactly
`ceil(total / max_items)` pages whose sizes realise the target
distribution: `total // pages` each, one extra on the first
`total % pages` pages. -/
theorem distribute_balanced_targets {α β : Type} (E : List α) (T : List β) (cap : Nat)
    (hcap : 0 < cap) (hgt : cap < E.length + T.length)
    (hle : E.length + T.length ≤ 1000) :
    (distribute_items_across_pages E T cap).length
        = (E.length + T.length + cap - 1) / cap ∧
    (distribute_items_across_pages E T cap).map
        (fun p => p.events.length + p.tasks.length)
      = (List.range ((E.length + T.length + cap - 1) / cap)).map
          (fun i => if i < (E.length + T.length) % ((E.length + T.length + cap - 1) / cap)
            then (E.length + T.length) / ((E.length + T.length + cap - 1) / cap) + 1
            else (E.length + T.length) / ((E.length + T.length + cap - 1) / cap)) := by
  rw [distribute_main_eq E T cap hcap hgt hle]
  have hs := fillPages_sizes cap (pageTargets (E.length + T.length) cap) E T
    (le_of_eq (pageTargets_sum _ _ hcap hgt))
  constructor
  · have hlen := congrArg List.length hs
    rw [List.length_map] at hlen
    rw [hlen, pageTargets_length]
  · rw [hs, pageTargets_eq]

/-- Witness: 20 items with capacity 8 give pages of sizes [7, 7, 6]
(not [8, 8, 4]). -/
theorem distribute_balanced_targets_witness :
    (distribute_items_across_pages (List.range 16) (List.range 4) 8).map
      (fun p => p.events.length + p.tasks.length) = [7, 7, 6] :=
  ((distribute_balanced_targets (List.range 16) (List.range 4) 8 (by decide) (by decide)
    (by decide)).2).trans (by decide)

/-- C3 as stated is false: with 1001 items and capacity 8 the total
exceeds the capacity, yet the guard produces one page instead of
`ceil(1001 / 8) = 126`. -/
theorem distribute_balanced_targets_counterexample :
    8 < (List.replicate 1001 (0 : Nat)).length + ([] : List Nat).length ∧
    (distribute_items_across_pages (List.replicate 1001 (0 : Nat)) ([] : List Nat) 8).length
      ≠ ((List.replicate 1001 (0 : Nat)).length + ([] : List Nat).length + 8 - 1) / 8 := by
  constructor
  · decide
  · decide

/-- C4 (amended): 6 events and 4 tasks with capacity 6 total 10 items,
above capacity, so the result is two pages of 5 items: the first five
events, then the sixth event together with all four tasks. -/
theorem distribute_six_events_four_tasks {α β : Type} (E : List α) (T : List β)
    (hE : E.length = 6) (hT : T.length = 4) :
    distribute_items_across_pages E T 6 = [⟨E.take 5, []⟩, ⟨E.drop 5, T⟩] := by
  rcases E with _ | ⟨a, _ | ⟨b, _ | ⟨c, _ | ⟨d, _ | ⟨e, _ | ⟨f, _ | ⟨g, E⟩⟩⟩⟩⟩⟩⟩ <;>
    simp only [List.length_cons, List.length_nil] at hE <;> try omega
  rcases T with _ | ⟨t1, _ | ⟨t2, _ | ⟨t3, _ | ⟨t4, _ | ⟨t5, T⟩⟩⟩⟩⟩ <;>
    simp only [List.length_cons, List.length_nil] at hT <;> try omega
  have hlen : [a, b, c, d, e, f].length + [t1, t2, t3, t4].length = 10 := by simp
  rw [distribute_main_eq [a, b, c, d, e, f] [t1, t2, t3, t4] 6 (by omega) (by omega)
    (by omega)]
  rw [hlen, show pageTargets 10 6 = [5, 5] from by decide]
  rfl

/-- Witness for `distribute_six_events_four_tasks` at a concrete input. -/
theorem distribute_six_events_four_tasks_witness :
    distribute_items_across_pages [0, 1, 2, 3, 4, 5] [10, 11, 12, 13] 6
      = [⟨[0, 1, 2, 3, 4], []⟩, ⟨[5], [10, 11, 12, 13]⟩] :=
  distribute_six_events_four_tasks [0, 1, 2, 3, 4, 5] [10, 11, 12, 13]
    (by decide) (by decide)

/-- C4 as stated is false: 6 events and 4 tasks with capacity 6 produce
two pages, not a single page holding the 6 events. -/
theorem distribute_six_events_four_tasks_counterexample :
    (distribute_items_across_pages [0, 1, 2, 3, 4, 5] [10, 11, 12, 13] 6).length ≠ 1 := by
  decide

/-- C10: whenever the combined input exceeds the 1000-item safety guard,
the algorithm returns a single page with empty event and task lists —
every input item is discarded. -/
theorem distribute_overflow_guard {α β : Type} (E : List α) (T : List β) (cap : Nat)
    (h : E.length + T.length > 1000) :
    distribute_items_across_pages E T cap = [⟨[], []⟩] := by
  unfold distribute_items_across_pages
  rw [if_pos h]

/-- Witness for `distribute_overflow_guard` at a concrete input. -/
theorem distribute_overflow_guard_witness :
    distribute_items_across_pages (List.replicate 1001 (0 : Nat)) ([] : List Nat) 6
      = [⟨[], []⟩] :=
  distribute_overflow_guard (List.replicate 1001 (0 : Nat)) ([] : List Nat) 6 (by decide)

/-! ## Event validator

Embedding of `validate_events(events)` (source lines 1601-1691).  An
event dictionary is modelled by `VEvent`; `begin_local`/`end_local` are
Arrow instants in the configured local timezone, modelled as minutes on
an integer time axis (Arrow instants are exact, totally ordered values;
`floor('day')` is flooring to a multiple of 1440 minutes).  The source's
duplicate key is `(summary, str(begin_local), str(end_local), all_day)`;
`str` on same-timezone Arrow instants is injective, so the key is
modelled by the values themselves.  The ordering audit (source lines
1648-1657) only appends log messages and never changes the output, so it
is not part of the embedding.  Python's `str.lower` is modelled
per-character (the cancellation keyword is ASCII). -/

def lowerStr (s : String) : List Char := s.data.map Char.toLower

def listStartsWith : List Char → List Char → Bool
  | [], _ => true
  | _ :: _, [] => false
  | p :: ps, c :: cs => p == c && listStartsWith ps cs

/-- Python's `pat in s` substring test. -/
def containsSubstr (pat : List Char) : List Char → Bool
  | [] => listStartsWith pat []
  | c :: cs => listStartsWith pat (c :: cs) || containsSubstr pat cs

structure VEvent where
  summary : String
  description : String
  begin_local : Int
  end_local : Int
  all_day : Bool
deriving DecidableEq, Repr

/-- Arrow's `floor('day')`: the midnight at or before the instant.  `%`
on `Int` is Euclidean (nonnegative remainder for a positive modulus),
matching Python's floor-mod. -/
def floorDay (t : Int) : Int := t - t % 1440

def eventDay (e : VEvent) : Int := floorDay e.begin_local

/-- The duplicate-detection key (source line 1621). -/
def ekey (e : VEvent) : String × Int × Int × Bool :=
  (e.summary, e.begin_local, e.end_local, e.all_day)

/-- `"cancel" in summary.lower() + description.lower()` (source line 1636). -/
def hasCancelText (e : VEvent) : Bool :=
  containsSubstr "cancel".data (lowerStr e.summary ++ lowerStr e.description)

/-- The all-day bleed test (source lines 1641-1646): an all-day event
whose day span exceeds one day.  The floored instants differ by a whole
number of days, so `(end_day - begin_day).days > 1` is `> 1440`
minutes. -/
def isBleed (e : VEvent) : Bool :=
  e.all_day && decide (1440 < floorDay e.end_local - floorDay e.begin_local)

/-- The first pass of `validate_events` (source lines 1615-1661): walk
the list tracking seen keys; keep an event iff its key is fresh and it is
neither cancellation-texted nor a bleeding all-day event.  The key is
recorded even for events dropped as cancelled, exactly as in the
source. -/
def validateSweep : List VEvent → List (String × Int × Int × Bool) → List VEvent
  | [], _ => []
  | e :: rest, seen =>
    let k := ekey e
    let seen1 := if k ∈ seen then seen else k :: seen
    if k ∈ seen ∨ (hasCancelText e || isBleed e) = true then validateSweep rest seen1
    else e :: validateSweep rest seen1

/-- Code-point lexicographic comparison of character lists: Python's
string `<=`. -/
def lexLeC : List Char → List Char → Bool
  | [], _ => true
  | _ :: _, [] => false
  | a :: as, b :: bs => a.toNat < b.toNat || (a.toNat == b.toNat && lexLeC as bs)

def strLe (a b : String) : Bool := lexLeC a.data b.data

/-- The sort key `(begin_local, summary)` of source lines 1674-1675, as a
total preorder. -/
def eventLe (a b : VEvent) : Prop :=
  a.begin_local < b.begin_local ∨
    (a.begin_local = b.begin_local ∧ strLe a.summary b.summary = true)

instance : DecidableRel eventLe := fun a b =>
  inferInstanceAs (Decidable (a.begin_local < b.begin_local ∨
    (a.begin_local = b.begin_local ∧ strLe a.summary b.summary = true)))

/-- The distinct start days of a list of events. -/
def daysOf (l : List VEvent) : List Int := (l.map eventDay).dedup

/-- `sorted(events_by_day.keys())` (source line 1670). -/
def daySorted (l : List VEvent) : List Int :=
  List.insertionSort (· ≤ ·) (daysOf l)

/-- One day's output block (source lines 1671-1676): the day's events in
input order, all-day ones first, each bucket stably sorted by
`(begin_local, summary)`.  Python's `list.sort` is a stable sort by a
total preorder, which is exactly `List.insertionSort`. -/
def dayBlock (l : List VEvent) (d : Int) : List VEvent :=
  List.insertionSort eventLe
      ((l.filter (fun e => eventDay e == d)).filter (fun e => e.all_day))
    ++ List.insertionSort eventLe
      ((l.filter (fun e => eventDay e == d)).filter (fun e => !e.all_day))

def blocksConcat (l : List VEvent) : List Int → List VEvent
  | [] => []
  | d :: ds => dayBlock l d ++ blocksConcat l ds

/-- The regrouping phase of `validate_events` (source lines 1663-1676). -/
def regroupDays (l : List VEvent) : List VEvent :=
  blocksConcat l (daySorted l)

/-- `validate_events` (source lines 1601-1691): the sweep followed by the
day regrouping.  The issue log written to a file does not influence the
returned list. -/
def validate_events (events : List VEvent) : List VEvent :=
  regroupDays (validateSweep events [])

theorem lexLeC_total : ∀ as bs : List Char, lexLeC as bs = true ∨ lexLeC bs as = true
  | [], _ => Or.inl rfl
  | _ :: _, [] => Or.inr rfl
  | a :: as, b :: bs => by
    simp only [lexLeC, Bool.or_eq_true, Bool.and_eq_true, beq_iff_eq, decide_eq_true_eq]
    rcases Nat.lt_trichotomy a.toNat b.toNat with h | h | h
    · exact Or.inl (Or.inl h)
    · rcases lexLeC_total as bs with h2 | h2
      · exact Or.inl (Or.inr ⟨h, h2⟩)
      · exact Or.inr (Or.inr ⟨h.symm, h2⟩)
    · exact Or.inr (Or.inl h)

theorem lexLeC_trans : ∀ as bs cs : List Char, lexLeC as bs = true → lexLeC bs cs = true →
    lexLeC as cs = true
  | [], _, _, _, _ => rfl
  | _ :: _, [], _, h1, _ => by simp [lexLeC] at h1
  | _ :: _, _ :: _, [], _, h2 => by simp [lexLeC] at h2
  | a :: as, b :: bs, c :: cs, h1, h2 => by
    simp only [lexLeC, Bool.or_eq_true, Bool.and_eq_true, beq_iff_eq,
      decide_eq_true_eq] at h1 h2 ⊢
    rcases h1 with h1 | ⟨h1e, h1r⟩
    · rcases h2 with h2 | ⟨h2e, h2r⟩
      · exact Or.inl (by omega)
      · exact Or.inl (by omega)
    · rcases h2 with h2 | ⟨h2e, h2r⟩
      · exact Or.inl (by omega)
      · exact Or.inr ⟨by omega, lexLeC_trans as bs cs h1r h2r⟩

instance : IsTotal VEvent eventLe := by
  constructor
  intro a b
  unfold eventLe
  rcases Int.lt_trichotomy a.begin_local b.begin_local with h | h | h
  · exact Or.inl (Or.inl h)
  · rcases lexLeC_total a.summary.data b.summary.data with h2 | h2
    · exact Or.inl (Or.inr ⟨h, h2⟩)
    · exact Or.inr (Or.inr ⟨h.symm, h2⟩)
  · exact Or.inr (Or.inl h)

instance : IsTrans VEvent eventLe := by
  constructor
  intro a b c h1 h2
  unfold eventLe at h1 h2 ⊢
  rcases h1 with h1 | ⟨h1e, h1r⟩
  · rcases h2 with h2 | ⟨h2e, h2r⟩
    · exact Or.inl (h1.trans h2)
    · exact Or.inl (h2e ▸ h1)
  · rcases h2 with h2 | ⟨h2e, h2r⟩
    · exact Or.inl (h1e ▸ h2)
    · exact Or.inr ⟨h1e.trans h2e, lexLeC_trans _ _ _ h1r h2r⟩

theorem mem_dayBlock_day {l : List VEvent} {d : Int} :
    ∀ e ∈ dayBlock l d, eventDay e = d := by
  intro e he
  simp only [dayBlock, List.mem_append, List.mem_insertionSort, List.mem_filter,
    beq_iff_eq] at he
  rcases he with ⟨⟨_, hd⟩, _⟩ | ⟨⟨_, hd⟩, _⟩ <;> exact hd

theorem dayBlock_perm (l : List VEvent) (d : Int) :
    List.Perm (dayBlock l d) (l.filter (fun e => eventDay e == d)) := by
  unfold dayBlock
  refine List.Perm.trans ?_ (List.filter_append_perm (fun e => e.all_day) _)
  exact List.Perm.append (List.perm_insertionSort _ _) (List.perm_insertionSort _ _)

theorem mem_blocksConcat_day {l : List VEvent} :
    ∀ {ds : List Int}, ∀ e ∈ blocksConcat l ds, eventDay e ∈ ds := by
  intro ds
  induction ds with
  | nil => simp [blocksConcat]
  | cons d rest ih =>
    intro e he
    rw [blocksConcat, List.mem_append] at he
    rcases he with he | he
    · rw [mem_dayBlock_day e he]
      exact List.mem_cons_self _ _
    · exact List.mem_cons_of_mem _ (ih e he)

theorem blocksConcat_congr {x y : List VEvent} : ∀ {ds : List Int},
    (∀ d ∈ ds, dayBlock x d = dayBlock y d) → blocksConcat x ds = blocksConcat y ds := by
  intro ds
  induction ds with
  | nil => intro _; rfl
  | cons d rest ih =>
    intro h
    rw [blocksConcat, blocksConcat, h d (List.mem_cons_self _ _),
      ih (fun d1 hd1 => h d1 (List.mem_cons_of_mem _ hd1))]

theorem dayBlock_filter_out {l : List VEvent} {d d1 : Int} (hne : d1 ≠ d) :
    dayBlock (l.filter (fun e => !(eventDay e == d))) d1 = dayBlock l d1 := by
  have h : (l.filter (fun e => !(eventDay e == d))).filter (fun e => eventDay e == d1)
      = l.filter (fun e => eventDay e == d1) := by
    rw [List.filter_filter]
    apply List.filter_congr
    intro e _
    by_cases he : eventDay e = d1
    · simp [he, hne]
    · simp [he]
  unfold dayBlock
  rw [h]

theorem blocksConcat_filter_out {l : List VEvent} {d : Int} : ∀ {ds : List Int}, d ∉ ds →
    blocksConcat (l.filter (fun e => !(eventDay e == d))) ds = blocksConcat l ds := by
  intro ds
  induction ds with
  | nil => intro _; rfl
  | cons d1 rest ih =>
    intro hd
    rw [blocksConcat, blocksConcat,
      dayBlock_filter_out (fun hc => hd (by rw [hc]; exact List.mem_cons_self _ _)),
      ih (fun hc => hd (List.mem_cons_of_mem _ hc))]

/-- Regrouping by distinct covering days is a permutation of the input. -/
theorem blocksConcat_perm (l : List VEvent) : ∀ ds : List Int, ds.Nodup →
    (∀ e ∈ l, eventDay e ∈ ds) → List.Perm (blocksConcat l ds) l := by
  intro ds
  induction ds generalizing l with
  | nil =>
    intro _ hcov
    have : l = [] := List.eq_nil_iff_forall_not_mem.mpr (fun e he => by simp at hcov ⊢; exact hcov e he)
    rw [this]
    exact List.Perm.refl _
  | cons d rest ih =>
    intro hnd hcov
    rw [blocksConcat, ← blocksConcat_filter_out (List.Nodup.not_mem hnd)]
    refine List.Perm.trans ?_ (List.filter_append_perm (fun e => eventDay e == d) l)
    refine List.Perm.append (dayBlock_perm l d) ?_
    apply ih
    · exact List.Nodup.of_cons hnd
    · intro e he
      rw [List.mem_filter] at he
      have hin := hcov e he.1
      rw [List.mem_cons] at hin
      rcases hin with hin | hin
      · exfalso
        have hne := he.2
        simp only [hin, beq_self_eq_true, Bool.not_true] at hne
        exact Bool.false_ne_true hne
      · exact hin

/-- Every survivor of the sweep is free of cancellation text and of
all-day bleed. -/
theorem validateSweep_clean (l : List VEvent) :
    ∀ seen : List (String × Int × Int × Bool),
    ∀ e ∈ validateSweep l seen, hasCancelText e = false ∧ isBleed e = false := by
  induction l with
  | nil => intro seen e he; simp [validateSweep] at he
  | cons e rest ih =>
    intro seen e1 he1
    simp only [validateSweep] at he1
    by_cases hc : (ekey e ∈ seen ∨ (hasCancelText e || isBleed e) = true)
    · rw [if_pos hc] at he1
      exact ih _ e1 he1
    · rw [if_neg hc] at he1
      rw [List.mem_cons] at he1
      rcases he1 with he1 | he1
      · subst he1
        have hb : (hasCancelText e1 || isBleed e1) = false :=
          Bool.eq_false_iff.mpr (fun h => hc (Or.inr h))
        simpa using hb
      · exact ih _ e1 he1

/-- The survivors of the sweep carry pairwise distinct keys, none of them
already seen. -/
theorem validateSweep_keys (l : List VEvent) :
    ∀ seen : List (String × Int × Int × Bool),
    ((validateSweep l seen).map ekey).Nodup ∧
    ∀ k ∈ (validateSweep l seen).map ekey, k ∉ seen := by
  induction l with
  | nil => intro seen; simp [validateSweep]
  | cons e rest ih =>
    intro seen
    simp only [validateSweep]
    by_cases hc : (ekey e ∈ seen ∨ (hasCancelText e || isBleed e) = true)
    · rw [if_pos hc]
      by_cases hs : ekey e ∈ seen
      · rw [if_pos hs]
        exact ih seen
      · rw [if_neg hs]
        refine ⟨(ih _).1, ?_⟩
        intro k hk hkseen
        exact (ih _).2 k hk (List.mem_cons_of_mem _ hkseen)
    · rw [if_neg hc]
      have hs : ekey e ∉ seen := fun h => hc (Or.inl h)
      rw [if_neg hs]
      have ih1 := (ih (ekey e :: seen)).1
      have ih2 := (ih (ekey e :: seen)).2
      constructor
      · simp only [List.map_cons, List.nodup_cons]
        exact ⟨fun hmem => ih2 _ hmem (List.mem_cons_self _ _), ih1⟩
      · intro k hk
        simp only [List.map_cons, List.mem_cons] at hk
        rcases hk with hk | hk
        · subst hk; exact hs
        · intro hkseen
          exact ih2 k hk (List.mem_cons_of_mem _ hkseen)

/-- On a list with distinct keys and no cancellation/bleed events, the
sweep is the identity. -/
theorem validateSweep_id (l : List VEvent) :
    ∀ seen : List (String × Int × Int × Bool),
    (l.map ekey).Nodup →
    (∀ e ∈ l, hasCancelText e = false ∧ isBleed e = false) →
    (∀ e ∈ l, ekey e ∉ seen) →
    validateSweep l seen = l := by
  induction l with
  | nil => intro seen _ _ _; rfl
  | cons e rest ih =>
    intro seen hnd hclean hseen
    have hkey : ekey e ∉ seen := hseen e (List.mem_cons_self _ _)
    have hcln := hclean e (List.mem_cons_self _ _)
    have hcond : ¬ (ekey e ∈ seen ∨ (hasCancelText e || isBleed e) = true) := by
      intro hc
      rcases hc with hc | hc
      · exact hkey hc
      · rw [hcln.1, hcln.2] at hc
        simp at hc
    simp only [validateSweep]
    rw [if_neg hkey, if_neg hcond]
    congr 1
    simp only [List.map_cons, List.nodup_cons] at hnd
    apply ih
    · exact hnd.2
    · intro e1 he1
      exact hclean e1 (List.mem_cons_of_mem _ he1)
    · intro e1 he1
      rw [List.mem_cons]
      rintro (hk | hk)
      · exact hnd.1 (hk ▸ List.mem_map_of_mem ekey he1)
      · exact hseen e1 (List.mem_cons_of_mem _ he1) hk

theorem daySorted_nodup (l : List VEvent) : (daySorted l).Nodup :=
  ((List.perm_insertionSort _ _).nodup_iff).mpr (List.nodup_dedup _)

theorem mem_daySorted {l : List VEvent} {e : VEvent} (he : e ∈ l) :
    eventDay e ∈ daySorted l := by
  unfold daySorted daysOf
  rw [List.mem_insertionSort, List.mem_dedup]
  exact List.mem_map_of_mem _ he

theorem daySorted_sorted (l : List VEvent) :
    List.Sorted (· ≤ ·) (daySorted l) :=
  List.sorted_insertionSort _ _

/-- The regrouping phase permutes its input. -/
theorem regroupDays_perm (l : List VEvent) : List.Perm (regroupDays l) l :=
  blocksConcat_perm l (daySorted l) (daySorted_nodup l) (fun _ he => mem_daySorted he)

theorem daySorted_eq_of_perm {l1 l2 : List VEvent} (h : List.Perm l1 l2) :
    daySorted l1 = daySorted l2 := by
  refine List.eq_of_perm_of_sorted ?_ (daySorted_sorted l1) (daySorted_sorted l2)
  unfold daySorted daysOf
  exact (List.perm_insertionSort _ _).trans
    (((h.map eventDay).dedup).trans (List.perm_insertionSort _ _).symm)

theorem filter_day_dayBlock_self (l : List VEvent) (d : Int) :
    (dayBlock l d).filter (fun e => eventDay e == d) = dayBlock l d :=
  List.filter_eq_self.mpr (fun e he => beq_iff_eq.mpr (mem_dayBlock_day e he))

theorem filter_day_dayBlock_ne {l : List VEvent} {d d1 : Int} (h : d1 ≠ d) :
    (dayBlock l d1).filter (fun e => eventDay e == d) = [] :=
  List.filter_eq_nil_iff.mpr (fun e he hc =>
    h ((mem_dayBlock_day e he) ▸ beq_iff_eq.mp hc))

/-- Filtering the regrouped list by a day recovers that day's block. -/
theorem blocksConcat_filter_day (l : List VEvent) :
    ∀ ds : List Int, ds.Nodup → ∀ d ∈ ds,
    (blocksConcat l ds).filter (fun e => eventDay e == d) = dayBlock l d := by
  intro ds
  induction ds with
  | nil => intro _ d hd; simp at hd
  | cons d1 rest ih =>
    intro hnd d hd
    rw [blocksConcat, List.filter_append]
    rw [List.mem_cons] at hd
    rcases hd with hd | hd
    · subst hd
      rw [filter_day_dayBlock_self]
      have hrest : (blocksConcat l rest).filter (fun e => eventDay e == d) = [] := by
        apply List.filter_eq_nil_iff.mpr
        intro e he hc
        have := mem_blocksConcat_day e he
        rw [beq_iff_eq.mp hc] at this
        exact (List.nodup_cons.mp hnd).1 this
      rw [hrest, List.append_nil]
    · have hne : d ≠ d1 := by
        intro hc
        subst hc
        exact (List.nodup_cons.mp hnd).1 hd
      rw [filter_day_dayBlock_ne hne.symm, ih (List.nodup_cons.mp hnd).2 d hd,
        List.nil_append]

theorem blocksConcat_filter_not_mem {l : List VEvent} {ds : List Int} {d : Int}
    (hd : d ∉ ds) :
    (blocksConcat l ds).filter (fun e => eventDay e == d) = [] := by
  apply List.filter_eq_nil_iff.mpr
  intro e he hc
  have hmem := mem_blocksConcat_day e he
  rw [beq_iff_eq.mp hc] at hmem
  exact hd hmem

theorem dayBlock_filter_allday (l : List VEvent) (d : Int) :
    (dayBlock l d).filter (fun e => e.all_day)
      = List.insertionSort eventLe
          ((l.filter (fun e => eventDay e == d)).filter (fun e => e.all_day)) := by
  unfold dayBlock
  rw [List.filter_append]
  have h1 : (List.insertionSort eventLe ((l.filter (fun e => eventDay e == d)).filter
      (fun e => e.all_day))).filter (fun e => e.all_day)
      = List.insertionSort eventLe ((l.filter (fun e => eventDay e == d)).filter
        (fun e => e.all_day)) := by
    apply List.filter_eq_self.mpr
    intro e he
    rw [List.mem_insertionSort, List.mem_filter] at he
    exact he.2
  have h2 : (List.insertionSort eventLe ((l.filter (fun e => eventDay e == d)).filter
      (fun e => !e.all_day))).filter (fun e => e.all_day) = [] := by
    apply List.filter_eq_nil_iff.mpr
    intro e he hc
    rw [List.mem_insertionSort, List.mem_filter] at he
    simp [hc] at he
  rw [h1, h2, List.append_nil]

theorem dayBlock_filter_timed (l : List VEvent) (d : Int) :
    (dayBlock l d).filter (fun e => !e.all_day)
      = List.insertionSort eventLe
          ((l.filter (fun e => eventDay e == d)).filter (fun e => !e.all_day)) := by
  unfold dayBlock
  rw [List.filter_append]
  have h1 : (List.insertionSort eventLe ((l.filter (fun e => eventDay e == d)).filter
      (fun e => e.all_day))).filter (fun e => !e.all_day) = [] := by
    apply List.filter_eq_nil_iff.mpr
    intro e he hc
    rw [List.mem_insertionSort, List.mem_filter] at he
    simp [he.2] at hc
  have h2 : (List.insertionSort eventLe ((l.filter (fun e => eventDay e == d)).filter
      (fun e => !e.all_day))).filter (fun e => !e.all_day)
      = List.insertionSort eventLe ((l.filter (fun e => eventDay e == d)).filter
        (fun e => !e.all_day)) := by
    apply List.filter_eq_self.mpr
    intro e he
    rw [List.mem_insertionSort, List.mem_filter] at he
    exact he.2
  rw [h1, h2, List.nil_append]

/-- A list whose `d`-day slice is already a canonical day block
reproduces that block when regrouped for day `d`. -/
theorem dayBlock_canonical {X l : List VEvent} {d : Int}
    (h : X.filter (fun e => eventDay e == d) = dayBlock l d) :
    dayBlock X d = dayBlock l d := by
  show List.insertionSort eventLe
        ((X.filter (fun e => eventDay e == d)).filter (fun e => e.all_day))
      ++ List.insertionSort eventLe
        ((X.filter (fun e => eventDay e == d)).filter (fun e => !e.all_day))
    = dayBlock l d
  rw [h, dayBlock_filter_allday, dayBlock_filter_timed,
    List.Sorted.insertionSort_eq (List.sorted_insertionSort eventLe _),
    List.Sorted.insertionSort_eq (List.sorted_insertionSort eventLe _)]
  rfl

/-- Regrouping is idempotent. -/
theorem regroupDays_idem (l : List VEvent) :
    regroupDays (regroupDays l) = regroupDays l := by
  have hds : daySorted (regroupDays l) = daySorted l :=
    daySorted_eq_of_perm (regroupDays_perm l)
  show blocksConcat (regroupDays l) (daySorted (regroupDays l)) = regroupDays l
  rw [hds]
  show blocksConcat (regroupDays l) (daySorted l) = blocksConcat l (daySorted l)
  apply blocksConcat_congr
  intro d hd
  exact dayBlock_canonical (blocksConcat_filter_day l (daySorted l) (daySorted_nodup l) d hd)

/-- C5: the validator is idempotent — applied to its own output it
removes nothing further and leaves the ordering unchanged. -/
theorem validate_events_idempotent (events : List VEvent) :
    validate_events (validate_events events) = validate_events events := by
  unfold validate_events
  have hkeys := validateSweep_keys events []
  have hperm := regroupDays_perm (validateSweep events [])
  have hnd : ((regroupDays (validateSweep events [])).map ekey).Nodup :=
    ((hperm.map ekey).nodup_iff).mpr hkeys.1
  have hclean : ∀ e ∈ regroupDays (validateSweep events []),
      hasCancelText e = false ∧ isBleed e = false := fun e he =>
    validateSweep_clean events [] e (hperm.mem_iff.mp he)
  rw [validateSweep_id _ [] hnd hclean (fun e _ => by simp)]
  exact regroupDays_idem _

theorem blocksConcat_days_pairwise (l : List VEvent) :
    ∀ ds : List Int, List.Sorted (· ≤ ·) ds →
    List.Pairwise (fun a b : VEvent => eventDay a ≤ eventDay b) (blocksConcat l ds) := by
  intro ds
  induction ds with
  | nil => intro _; exact List.Pairwise.nil
  | cons d rest ih =>
    intro hs
    rw [List.sorted_cons] at hs
    rw [blocksConcat, List.pairwise_append]
    refine ⟨?_, ih hs.2, ?_⟩
    · apply List.pairwise_of_forall_mem_list
      intro a ha b hb
      rw [mem_dayBlock_day a ha, mem_dayBlock_day b hb]
    · intro a ha b hb
      rw [mem_dayBlock_day a ha]
      exact hs.1 _ (mem_blocksConcat_day b hb)

/-- C6: the validator's output is grouped by ascending start day; inside
each day the all-day events precede the timed ones, each bucket sorted by
`(begin_local, summary)`. -/
theorem validate_events_ordering (events : List VEvent) :
    List.Sorted (· ≤ ·) ((validate_events events).map eventDay) ∧
    ∀ d : Int,
      (validate_events events).filter (fun e => eventDay e == d)
        = ((validate_events events).filter (fun e => eventDay e == d)).filter
            (fun e => e.all_day)
          ++ ((validate_events events).filter (fun e => eventDay e == d)).filter
            (fun e => !e.all_day) ∧
      List.Sorted eventLe
        (((validate_events events).filter (fun e => eventDay e == d)).filter
          (fun e => e.all_day)) ∧
      List.Sorted eventLe
        (((validate_events events).filter (fun e => eventDay e == d)).filter
          (fun e => !e.all_day)) := by
  constructor
  · show List.Pairwise (· ≤ ·) ((validate_events events).map eventDay)
    rw [List.pairwise_map]
    exact blocksConcat_days_pairwise (validateSweep events []) (daySorted _)
      (daySorted_sorted _)
  · intro d
    by_cases hd : d ∈ daySorted (validateSweep events [])
    · have hfd : (validate_events events).filter (fun e => eventDay e == d)
          = dayBlock (validateSweep events []) d :=
        blocksConcat_filter_day _ (daySorted _) (daySorted_nodup _) d hd
      refine ⟨?_, ?_, ?_⟩
      · rw [hfd, dayBlock_filter_allday, dayBlock_filter_timed]
        rfl
      · rw [hfd, dayBlock_filter_allday]
        exact List.sorted_insertionSort _ _
      · rw [hfd, dayBlock_filter_timed]
        exact List.sorted_insertionSort _ _
    · have hfd : (validate_events events).filter (fun e => eventDay e == d) = [] :=
        blocksConcat_filter_not_mem hd
      rw [hfd]
      exact ⟨rfl, List.Pairwise.nil, List.Pairwise.nil⟩

/-! ## Time normalizer

Embedding of `convert_to_local(dt, timezone_str)` (source lines
1056-1071).  The mixed duck-typed input (`None`, `datetime.date`, naive
`datetime`, aware `datetime`) is the tagged union `PyTimeVal`; an aware
instant carries its absolute value (minutes) plus its attached zone name,
and `astimezone` re-anchors the same instant in the target zone.
`Except` models exception flow: the source body has no handler, and
`pytz.timezone` raises `UnknownTimeZoneError` on an identifier missing
from its database (modelled by a representative finite table). -/

inductive PyTimeVal where
  | none
  | pyDate (day : Int)
  | naiveDt (t : Int)
  | awareDt (t : Int) (tz : String)
deriving DecidableEq, Repr

/-- Model of the pytz timezone database: `pytz.timezone(name)` succeeds
exactly for known identifiers and raises otherwise. -/
def pytzKnownZones : List String :=
  ["UTC", "Europe/Berlin", "Europe/London", "America/New_York", "Asia/Tokyo"]

/-- `convert_to_local` (source lines 1056-1071): `None` stays `None` (the
falsy check), a date is returned unchanged, a naive instant is assumed
already local and returned unchanged, an aware instant is converted via
`pytz.timezone(timezone_str)` — which raises for an unknown
identifier. -/
def convert_to_local (dt : PyTimeVal) (timezone_str : String) : Except String PyTimeVal :=
  match dt with
  | .none => .ok .none
  | .pyDate d => .ok (.pyDate d)
  | .naiveDt t => .ok (.naiveDt t)
  | .awareDt t _ =>
    if timezone_str ∈ pytzKnownZones then .ok (.awareDt t timezone_str)
    else .error "UnknownTimeZoneError"

/-- C7 as stated is false: an aware instant with an unrecognised target
timezone identifier makes `pytz.timezone` raise; nothing in
`convert_to_local` catches it. -/
theorem convert_to_local_counterexample :
    convert_to_local (.awareDt 0 "UTC") "Not/A/Zone" = .error "UnknownTimeZoneError" := by
  rfl

/-- C7 (amended): the normalizer returns `None`, calendar dates and naive
instants unchanged and never raises on them; an aware instant is
converted to the target timezone when the identifier is known to pytz and
raises `UnknownTimeZoneError` when it is not. -/
theorem convert_to_local_amended (d t : Int) (tz0 tz : String) :
    convert_to_local .none tz = .ok .none ∧
    convert_to_local (.pyDate d) tz = .ok (.pyDate d) ∧
    convert_to_local (.naiveDt t) tz = .ok (.naiveDt t) ∧
    convert_to_local (.awareDt t tz0) tz
      = (if tz ∈ pytzKnownZones then .ok (.awareDt t tz)
         else .error "UnknownTimeZoneError") :=
  ⟨rfl, rfl, rfl, rfl⟩

/-! ## Recurrence resolution engine

Embedding of `parse_events(ical_data_str, timezone_str)` (source lines
597-830) past the icalendar deserialisation: a `VEVENT` component is the
record `ICalComponent` (absent text properties are `Option.none`,
matching `component.get(...) is None`).  Times live on one local-minute
axis: a `datetime.date` is its midnight (`DtVal.d`), a `datetime` is its
instant (`DtVal.dt`).  The source's timezone round-trip for aware starts
(to naive local before `rrulestr`, back after, lines 684-730) preserves
the denoted instant, so it is the identity on this axis.  `DtVal.dt`
models the timezone-aware datetime branch, which expands with
`between(..., inc=True)`; the naive branch (line 755) omits `inc=True`
and therefore uses strict bounds — a subset, so every containment
statement proved here holds for it a fortiori.  The multi-day check
(lines 623-628) subtracts `dtend - dtstart` whenever `dtstart` is a
date: if `dtend` is a datetime this raises `TypeError`, which escapes to
the handler at line 828 and aborts the whole parse; classification
therefore returns `Option Bool`, with `Option.none` modelling the
raise.  -/

inductive DtVal where
  | d (midnight : Int)
  | dt (t : Int)
deriving DecidableEq, Repr

/-- dateutil rrule restricted to what the source feeds it: a positive
step in minutes (FREQ and INTERVAL folded together), optional COUNT,
optional UNTIL. -/
structure RRuleM where
  stepMinutes : Nat
  count : Option Nat
  untilBound : Option Int
deriving DecidableEq, Repr

structure ICalComponent where
  uid : String
  recurrence_id : Option DtVal
  status : String
  summary : Option String
  description : Option String
  location : Option String
  transp : String
  dtstart : Option DtVal
  dtend : Option DtVal
  rrule : Option RRuleM
  exdates : List DtVal
deriving DecidableEq, Repr

/-- `str(component.get(P, '') or '')`. -/
def strOrEmpty : Option String → String
  | Option.none => ""
  | some s => s

/-- Python falsiness of `component.get(P)`: absent or empty string. -/
def optFalsy : Option String → Bool
  | Option.none => true
  | some s => s.isEmpty

def strUpper (s : String) : String := ⟨s.data.map Char.toUpper⟩

def strLower (s : String) : String := ⟨s.data.map Char.toLower⟩

/-- `"cancelled" in txt.lower() or "canceled" in txt.lower()` (source
line 619). -/
def textCancelled (s : String) : Bool :=
  containsSubstr "cancelled".data (lowerStr s) ||
  containsSubstr "canceled".data (lowerStr s)

/-- The Pass-1 cancellation verdict (source lines 616-632): explicit
CANCELLED status, cancellation keywords in summary or description, opaque
transparency with no start, an unnamed multi-day all-day span, or a
RECURRENCE-ID carrier that is cancelled or empty (deletion marker).
A DATE `DTSTART` paired with a DATE-TIME `DTEND` makes line 627 compute
`datetime - date`, a `TypeError` that no local handler catches:
`Option.none` models that raise (whatever the other checks set, the flag
is discarded when the exception fires). -/
def componentCancelled (c : ICalComponent) : Option Bool :=
  match c.dtstart, c.dtend with
  | some (.d _), some (.dt _) => Option.none
  | _, _ => some (
      (strUpper c.status == "CANCELLED")
      || textCancelled (strOrEmpty c.summary)
      || textCancelled (strOrEmpty c.description)
      || (strLower c.transp == "opaque" && c.dtstart.isNone)
      || (match c.dtstart, c.dtend with
          | some (.d s), some (.d e) =>
            decide (1440 < e - s) && (strOrEmpty c.summary).isEmpty
          | _, _ => false)
      || (c.recurrence_id.isSome &&
          (strUpper c.status == "CANCELLED" ||
            (optFalsy c.summary && optFalsy c.location && optFalsy c.description))))

def componentKey (c : ICalComponent) : String × Option DtVal := (c.uid, c.recurrence_id)

structure Pass1Result where
  master_events : List ICalComponent
  overrides : List ((String × Option DtVal) × ICalComponent)
  cancelled_keys : List (String × Option DtVal)
deriving DecidableEq, Repr

/-- Pass 1 (source lines 607-640): bucket each component into masters,
overrides (keyed by `(uid, recurrence_id)`) or the cancelled-key set.
`Option.none` propagates the classification `TypeError`: the loop body
raises on the offending component and the handler at line 828 abandons
the run, so no buckets survive. -/
def pass1 : List ICalComponent → Option Pass1Result
  | [] => some ⟨[], [], []⟩
  | c :: rest =>
    match componentCancelled c with
    | Option.none => Option.none
    | some cancelled =>
      match pass1 rest with
      | Option.none => Option.none
      | some r =>
        if cancelled then
          some ⟨r.master_events, r.overrides, componentKey c :: r.cancelled_keys⟩
        else if c.recurrence_id.isSome then
          some ⟨r.master_events, (componentKey c, c) :: r.overrides, r.cancelled_keys⟩
        else
          some ⟨c :: r.master_events, r.overrides, r.cancelled_keys⟩

/-- `overrides[key]` on the Python dict: the last binding wins. -/
def lookupOverride (k : String × Option DtVal)
    (ov : List ((String × Option DtVal) × ICalComponent)) : Option ICalComponent :=
  ov.foldl (fun acc p => if p.1 = k then some p.2 else acc) Option.none

/-- The resolved event dictionary appended to `all_events` (source lines
797-807 and 817-827).  `cal_name` is always `None` and is omitted. -/
structure PyEvent where
  uid : String
  summary : String
  description : String
  location : String
  begin_local : Int
  end_local : Int
  all_day : Bool
  is_recurring : Bool
deriving DecidableEq, Repr

/-- `arrow.get(value).to(timezone_str)`: a date becomes its midnight
instant, a datetime stays the same instant. -/
def toInstant : DtVal → Int
  | .d m => m
  | .dt t => t

def isDateVal : DtVal → Bool
  | .d _ => true
  | .dt _ => false

/-- Duration defaulting for a missing end (source lines 652-661):
same-day end for all-day, one hour for timed. -/
def defaultEnd : Option DtVal → Option DtVal → Option DtVal
  | some e, _ => some e
  | Option.none, some (.d m) => some (.d m)
  | Option.none, some (.dt t) => some (.dt (t + 60))
  | Option.none, Option.none => Option.none

/-- The master's occurrence duration (source lines 773-785): end minus
start when both bounds have the same variant, one hour otherwise. -/
def masterDuration : Option DtVal → Option DtVal → Int
  | some (.dt s), some (.dt e) => e - s
  | some (.d s), some (.d e) => e - s
  | _, _ => 60

/-- `dtstart_inst + duration` (source line 786): a date absorbs only the
whole-day part of a timedelta. -/
def addDur : DtVal → Int → DtVal
  | .dt t, dur => .dt (t + dur)
  | .d m, dur => .d (m + (dur - dur % 1440))

/-- dateutil `rule.between(lo, hi, inc=True)`: the occurrences
`dtstart + i·step` surviving COUNT and UNTIL that lie in `[lo, hi]`. -/
def ruleBetween (r : RRuleM) (dtstart lo hi : Int) : List Int :=
  let step : Nat := max 1 r.stepMinutes
  let bound : Nat := (hi - dtstart).toNat / step + 1
  let idxs := (List.range bound).filter (fun i =>
    match r.count with
    | some cnt => i < cnt
    | Option.none => true)
  let occs := idxs.map (fun i => dtstart + Int.ofNat step * Int.ofNat i)
  let occs := occs.filter (fun x =>
    match r.untilBound with
    | some u => x ≤ u
    | Option.none => true)
  occs.filter (fun x => lo ≤ x && x ≤ hi)

/-- Pass 2 for one master (source lines 642-827): skip a cancelled
series; without a rule emit one instance directly; with a rule evaluate
it over `[floor(now, day), floor(now, day) + 2 days]`, drop excluded or
cancelled occurrences, substitute override content (with the override's
own start/end) where present, else emit the master's content at the
occurrence anchor plus the master's duration. -/
def expandMaster (now : Int) (cancelled_keys : List (String × Option DtVal))
    (overrides : List ((String × Option DtVal) × ICalComponent))
    (ev : ICalComponent) : List PyEvent :=
  if (ev.uid, (Option.none : Option DtVal)) ∈ cancelled_keys then []
  else
    let dtend := defaultEnd ev.dtend ev.dtstart
    match ev.rrule, ev.dtstart with
    | some rule, some ds =>
      let window_start := floorDay now
      let window_end := window_start + 2880
      let occs := ruleBetween rule (toInstant ds) window_start window_end
      occs.filterMap (fun occ =>
        let occVal : DtVal := match ds with
          | .d _ => .d (floorDay occ)
          | .dt _ => .dt occ
        let occ_key : String × Option DtVal := (ev.uid, some occVal)
        if occVal ∈ ev.exdates ∨ occ_key ∈ cancelled_keys then Option.none
        else
          match lookupOverride occ_key overrides with
          | some comp =>
            let ds_i := match comp.dtstart with
              | some v => v
              | Option.none => occVal
            let de_i := match comp.dtend with
              | some v => v
              | Option.none => ds_i
            some { uid := ev.uid
                   summary := strOrEmpty comp.summary
                   description := strOrEmpty comp.description
                   location := strOrEmpty comp.location
                   begin_local := toInstant ds_i
                   end_local := toInstant de_i
                   all_day := isDateVal ds_i
                   is_recurring := true }
          | Option.none =>
            let dur := masterDuration ev.dtstart dtend
            some { uid := ev.uid
                   summary := strOrEmpty ev.summary
                   description := strOrEmpty ev.description
                   location := strOrEmpty ev.location
                   begin_local := toInstant occVal
                   end_local := toInstant (addDur occVal dur)
                   all_day := isDateVal occVal
                   is_recurring := true })
    | Option.none, some ds =>
      [{ uid := ev.uid
         summary := strOrEmpty ev.summary
         description := strOrEmpty ev.description
         location := strOrEmpty ev.location
         begin_local := toInstant ds
         end_local := match dtend with
           | some e => toInstant e
           | Option.none => toInstant ds
         all_day := isDateVal ds
         is_recurring := false }]
    | some _, Option.none => []
    | Option.none, Option.none => []

def expandAll (now : Int) (r : Pass1Result) : List ICalComponent → List PyEvent
  | [] => []
  | c :: rest => expandMaster now r.cancelled_keys r.overrides c ++ expandAll now r rest

/-- `parse_events` past deserialisation: Pass 1 classification followed
by Pass 2 expansion of every master, in order.  A classification
`TypeError` is caught by the blanket handler at line 828 before any
expansion ran, so the accumulated event list — empty — is returned. -/
def parse_events (comps : List ICalComponent) (now : Int) : List PyEvent :=
  match pass1 comps with
  | Option.none => []
  | some r => expandAll now r r.master_events

/-- When classification completes on a component, cancellation text in
its summary or description forces a true verdict. -/
theorem componentCancelled_of_text {c : ICalComponent} {b : Bool}
    (hok : componentCancelled c = some b)
    (htext : textCancelled (strOrEmpty c.summary) = true ∨
             textCancelled (strOrEmpty c.description) = true) :
    b = true := by
  unfold componentCancelled at hok
  split at hok
  · exact Option.noConfusion hok
  · rw [Option.some.injEq] at hok
    subst hok
    rcases htext with h | h <;> simp [h]

/-- A successful Pass 1 classified every listed component without
raising. -/
theorem pass1_ok_mem : ∀ (comps : List ICalComponent) (r : Pass1Result),
    pass1 comps = some r → ∀ c ∈ comps, ∃ b, componentCancelled c = some b := by
  intro comps
  induction comps with
  | nil => intro r _ c hc; cases hc
  | cons c0 rest ih =>
    intro r hr c hc
    simp only [pass1] at hr
    split at hr
    · exact Option.noConfusion hr
    next b0 h0 =>
      split at hr
      · exact Option.noConfusion hr
      next r0 hrest =>
        rw [List.mem_cons] at hc
        rcases hc with hc | hc
        · exact ⟨b0, hc ▸ h0⟩
        · exact ih r0 hrest c hc

theorem pass1_not_bucketed {c : ICalComponent} (hcanc : componentCancelled c = some true) :
    ∀ (comps : List ICalComponent) (r : Pass1Result), pass1 comps = some r →
    c ∉ r.master_events ∧ c ∉ (r.overrides.map Prod.snd) := by
  intro comps
  induction comps with
  | nil =>
    intro r hr
    simp only [pass1, Option.some.injEq] at hr
    rw [← hr]
    exact ⟨List.not_mem_nil c, List.not_mem_nil c⟩
  | cons c0 rest ih =>
    intro r hr
    simp only [pass1] at hr
    split at hr
    · exact Option.noConfusion hr
    next b0 h0 =>
      split at hr
      · exact Option.noConfusion hr
      next r0 hrest =>
        by_cases hb : b0 = true
        · rw [if_pos hb, Option.some.injEq] at hr
          rw [← hr]
          exact ih r0 hrest
        · rw [if_neg hb] at hr
          by_cases hrid : c0.recurrence_id.isSome
          · rw [if_pos hrid, Option.some.injEq] at hr
            rw [← hr]
            refine ⟨(ih r0 hrest).1, ?_⟩
            show c ∉ ((componentKey c0, c0) :: r0.overrides).map Prod.snd
            rw [List.map_cons, List.mem_cons]
            rintro (hc | hc)
            · exact hb (Option.some.inj
                (h0.symm.trans ((show c = c0 from hc) ▸ hcanc)))
            · exact (ih r0 hrest).2 hc
          · rw [if_neg hrid, Option.some.injEq] at hr
            rw [← hr]
            refine ⟨?_, (ih r0 hrest).2⟩
            show c ∉ c0 :: r0.master_events
            rw [List.mem_cons]
            rintro (hc | hc)
            · exact hb (Option.some.inj
                (h0.symm.trans ((show c = c0 from hc) ▸ hcanc)))
            · exact (ih r0 hrest).1 hc

theorem pass1_cancelled_key {c : ICalComponent} (hcanc : componentCancelled c = some true) :
    ∀ (comps : List ICalComponent) (r : Pass1Result), pass1 comps = some r →
    c ∈ comps → componentKey c ∈ r.cancelled_keys := by
  intro comps
  induction comps with
  | nil => intro r _ hc; cases hc
  | cons c0 rest ih =>
    intro r hr hc
    rw [List.mem_cons] at hc
    simp only [pass1] at hr
    split at hr
    · exact Option.noConfusion hr
    next b0 h0 =>
      split at hr
      · exact Option.noConfusion hr
      next r0 hrest =>
        by_cases hb : b0 = true
        · rw [if_pos hb, Option.some.injEq] at hr
          rw [← hr]
          show componentKey c ∈ componentKey c0 :: r0.cancelled_keys
          rcases hc with hc | hc
          · rw [hc]
            exact List.mem_cons_self _ _
          · exact List.mem_cons_of_mem _ (ih r0 hrest hc)
        · rcases hc with hc | hc
          · exact absurd (Option.some.inj
              (h0.symm.trans ((show c = c0 from hc) ▸ hcanc))) hb
          · rw [if_neg hb] at hr
            by_cases hrid : c0.recurrence_id.isSome
            · rw [if_pos hrid, Option.some.injEq] at hr
              rw [← hr]
              exact ih r0 hrest hc
            · rw [if_neg hrid, Option.some.injEq] at hr
              rw [← hr]
              exact ih r0 hrest hc

/-- C8 (amended): whenever Pass 1 completes without the date/datetime
`TypeError` (a DATE `DTSTART` paired with a DATE-TIME `DTEND` on any
component raises at line 627 and aborts the whole parse with no buckets
at all), every component whose summary or description contains the
keyword "cancelled" or "canceled" (case-insensitive substring; the bare
stem "cancel" does not match) receives a true verdict and its key joins
the cancelled set; the component is bucketed neither as a master nor as
an override. -/
theorem pass1_cancellation_text (comps : List ICalComponent) (c : ICalComponent)
    (r : Pass1Result) (hr : pass1 comps = some r) (hc : c ∈ comps)
    (htext : textCancelled (strOrEmpty c.summary) = true ∨
             textCancelled (strOrEmpty c.description) = true) :
    componentCancelled c = some true ∧
    componentKey c ∈ r.cancelled_keys ∧
    c ∉ r.master_events ∧
    c ∉ (r.overrides.map Prod.snd) := by
  obtain ⟨b, hb⟩ := pass1_ok_mem comps r hr c hc
  have hbt : b = true := componentCancelled_of_text hb htext
  subst hbt
  exact ⟨hb, pass1_cancelled_key hb comps r hr hc,
    (pass1_not_bucketed hb comps r hr).1, (pass1_not_bucketed hb comps r hr).2⟩

def cancelledTextComp : ICalComponent :=
  { uid := "u1", recurrence_id := Option.none, status := "",
    summary := some "Dinner CANCELLED", description := Option.none,
    location := Option.none, transp := "",
    dtstart := some (.dt 0), dtend := some (.dt 60),
    rrule := Option.none, exdates := [] }

/-- Witness for `pass1_cancellation_text` at a concrete component. -/
theorem pass1_cancellation_text_witness :
    componentCancelled cancelledTextComp = some true ∧
    componentKey cancelledTextComp
      ∈ (Pass1Result.mk [] [] [componentKey cancelledTextComp]).cancelled_keys ∧
    cancelledTextComp
      ∉ (Pass1Result.mk [] [] [componentKey cancelledTextComp]).master_events ∧
    cancelledTextComp
      ∉ ((Pass1Result.mk [] [] [componentKey cancelledTextComp]).overrides.map Prod.snd) :=
  pass1_cancellation_text [cancelledTextComp] cancelledTextComp
    (Pass1Result.mk [] [] [componentKey cancelledTextComp]) (by decide)
    (List.mem_cons_self _ _) (Or.inl (by decide))

def cancelStemComp : ICalComponent :=
  { uid := "u1", recurrence_id := Option.none, status := "",
    summary := some "Please cancel the meeting", description := some "",
    location := Option.none, transp := "",
    dtstart := some (.dt 0), dtend := some (.dt 60),
    rrule := Option.none, exdates := [] }

def mixedBoundsComp : ICalComponent :=
  { uid := "u3", recurrence_id := Option.none, status := "",
    summary := some "Holiday cancelled", description := Option.none,
    location := Option.none, transp := "",
    dtstart := some (.d 0), dtend := some (.dt 2880),
    rrule := Option.none, exdates := [] }

/-- C8 as stated is false twice over: the code matches only the
spellings "cancelled" and "canceled", so a summary containing the bare
substring "cancel" gets a false verdict and the component is bucketed as
a master; and a component whose text does match but which pairs a DATE
`DTSTART` with a DATE-TIME `DTEND` raises `TypeError` during
classification, so the whole parse aborts and its key is never added to
the cancelled set. -/
theorem pass1_cancellation_text_counterexample :
    (containsSubstr "cancel".data (lowerStr (strOrEmpty cancelStemComp.summary)) = true ∧
     componentCancelled cancelStemComp = some false ∧
     pass1 [cancelStemComp] = some (Pass1Result.mk [cancelStemComp] [] [])) ∧
    (textCancelled (strOrEmpty mixedBoundsComp.summary) = true ∧
     componentCancelled mixedBoundsComp = Option.none ∧
     pass1 [mixedBoundsComp] = Option.none ∧
     parse_events [mixedBoundsComp] 0 = []) :=
  ⟨⟨by decide, by decide, by decide⟩, ⟨by decide, by decide, by decide, by decide⟩⟩

theorem ruleBetween_bounds {r : RRuleM} {dtstart lo hi x : Int}
    (h : x ∈ ruleBetween r dtstart lo hi) : lo ≤ x ∧ x ≤ hi := by
  unfold ruleBetween at h
  rw [List.mem_filter] at h
  have h2 := h.2
  simp only [Bool.and_eq_true, decide_eq_true_eq] at h2
  exact h2

theorem floorDay_le (t : Int) : floorDay t ≤ t := by
  unfold floorDay
  omega

theorem floorDay_idem (t : Int) : floorDay (floorDay t) = floorDay t := by
  unfold floorDay
  omega

theorem floorDay_mono {a b : Int} (h : a ≤ b) : floorDay a ≤ floorDay b := by
  unfold floorDay
  omega

/-- C9 (amended): every instance emitted by recurrence expansion whose
content is not substituted from an override carrying its own DTSTART has
its start inside `[floor(now, 1 day), floor(now, 1 day) + 2 days]`,
inclusive; an overridden occurrence is emitted with the override's own
DTSTART, which may lie outside the window. -/
theorem expandMaster_window (now : Int) (ck : List (String × Option DtVal))
    (ov : List ((String × Option DtVal) × ICalComponent)) (c : ICalComponent)
    (e : PyEvent) (he : e ∈ expandMaster now ck ov c) (hrec : e.is_recurring = true) :
    (floorDay now ≤ e.begin_local ∧ e.begin_local ≤ floorDay now + 2880) ∨
    (∃ k comp v, lookupOverride k ov = some comp ∧ comp.dtstart = some v ∧
      e.begin_local = toInstant v) := by
  unfold expandMaster at he
  by_cases hck : (c.uid, (Option.none : Option DtVal)) ∈ ck
  · rw [if_pos hck] at he
    cases he
  · rw [if_neg hck] at he
    rcases hrule : c.rrule with _ | rule <;> rcases hds : c.dtstart with _ | ds <;>
      simp only [hrule, hds] at he
    · cases he
    · -- no rule, single event: is_recurring is false
      rw [List.mem_singleton] at he
      rw [he] at hrec
      simp at hrec
    · cases he
    · -- rule present: occurrences in the window
      rw [List.mem_filterMap] at he
      obtain ⟨occ, hocc, hf⟩ := he
      have hbounds := ruleBetween_bounds hocc
      rcases ds with m | t <;> dsimp only at hf
      · -- all-day master: the occurrence value is the occurrence's day
        have hwin : floorDay now ≤ floorDay occ ∧ floorDay occ ≤ floorDay now + 2880 := by
          constructor
          · have h1 := floorDay_mono hbounds.1
            rw [floorDay_idem] at h1
            exact h1
          · exact le_trans (floorDay_le occ) hbounds.2
        by_cases hskip : (DtVal.d (floorDay occ) ∈ c.exdates ∨
            (c.uid, some (DtVal.d (floorDay occ))) ∈ ck)
        · rw [if_pos hskip] at hf
          cases hf
        · rw [if_neg hskip] at hf
          rcases hov : lookupOverride (c.uid, some (DtVal.d (floorDay occ))) ov
              with _ | comp <;> rw [hov] at hf
          · simp only [Option.some.injEq] at hf
            left
            rw [← hf]
            exact hwin
          · rcases hcd : comp.dtstart with _ | v <;>
              simp only [hcd, Option.some.injEq] at hf
            · left
              rw [← hf]
              exact hwin
            · right
              exact ⟨_, comp, v, hov, hcd, by rw [← hf]⟩
      · -- timed master: the occurrence value is the occurrence instant
        by_cases hskip : (DtVal.dt occ ∈ c.exdates ∨ (c.uid, some (DtVal.dt occ)) ∈ ck)
        · rw [if_pos hskip] at hf
          cases hf
        · rw [if_neg hskip] at hf
          rcases hov : lookupOverride (c.uid, some (DtVal.dt occ)) ov
              with _ | comp <;> rw [hov] at hf
          · simp only [Option.some.injEq] at hf
            left
            rw [← hf]
            exact hbounds
          · rcases hcd : comp.dtstart with _ | v <;>
              simp only [hcd, Option.some.injEq] at hf
            · left
              rw [← hf]
              exact hbounds
            · right
              exact ⟨_, comp, v, hov, hcd, by rw [← hf]⟩

def windowMaster : ICalComponent :=
  { uid := "u2", recurrence_id := Option.none, status := "",
    summary := some "Standup", description := Option.none, location := Option.none,
    transp := "", dtstart := some (.dt 0), dtend := some (.dt 60),
    rrule := some { stepMinutes := 1440, count := Option.none, untilBound := Option.none },
    exdates := [] }

def windowOverride : ICalComponent :=
  { uid := "u2", recurrence_id := some (.dt 2880), status := "",
    summary := some "Standup (moved)", description := Option.none,
    location := Option.none, transp := "",
    dtstart := some (.dt 100000), dtend := some (.dt 100060),
    rrule := Option.none, exdates := [] }

/-- C9 as stated is false: a RECURRENCE-ID override carrying its own
DTSTART is emitted with that start, here 100000, far beyond the window
`[2880, 5760]` of `now = 2880`. -/
theorem expandMaster_window_counterexample :
    (parse_events [windowMaster, windowOverride] 2880).map
        (fun e => (e.begin_local, e.is_recurring))
      = [(100000, true), (4320, true), (5760, true)] ∧
    ¬ (floorDay 2880 ≤ (100000 : Int) ∧ (100000 : Int) ≤ floorDay 2880 + 2880) :=
  ⟨by decide, by decide⟩

/-- Witness for `expandMaster_window` at a concrete non-overridden
occurrence. -/
theorem expandMaster_window_witness :
    (floorDay 2880 ≤ (⟨"u2", "Standup", "", "", 4320, 4380, false, true⟩ : PyEvent).begin_local ∧
      (⟨"u2", "Standup", "", "", 4320, 4380, false, true⟩ : PyEvent).begin_local
        ≤ floorDay 2880 + 2880) ∨
    (∃ k comp v, lookupOverride k
        ([] : List ((String × Option DtVal) × ICalComponent)) = some comp ∧
      comp.dtstart = some v ∧
      (⟨"u2", "Standup", "", "", 4320, 4380, false, true⟩ : PyEvent).begin_local
        = toInstant v) :=
  expandMaster_window 2880 [] [] windowMaster
    ⟨"u2", "Standup", "", "", 4320, 4380, false, true⟩ (by decide) rfl

end Dashboard
